import Mathlib

/-!
Verification of the mongo-diff repository: a shallow embedding of its
versioned snapshot differ, retention engine, orchestrator (`main.go`) and
inventory sampler (`mongoInfo`), with theorems settling the specification
claims against it.

The Diff Engine, Version Store and Retention Manager live in the
`github.com/mylxsw/go-utils` dependency (packages `diff` and `file`), whose
source is not part of this repository; those components are modelled from
the specification text (each such definition is marked
`Modelled from the spec:`).  `main.go` is embedded from the source.
-/

set_option maxHeartbeats 1000000

namespace MongoDiff

/-- Tag of one line of an edit script: unchanged context, added, or removed. -/
inductive Tag where
  | context
  | added
  | removed
deriving DecidableEq, Repr

/-- One tagged line of an edit script. -/
structure TaggedLine where
  tag : Tag
  text : String
deriving DecidableEq, Repr

/-- Modelled from the spec: a Diff Hunk
`{old_start, old_count, new_start, new_count, lines}` where `lines` is an
ordered sequence of tagged lines; line numbers are 1-based. -/
structure Hunk where
  oldStart : Nat
  oldCount : Nat
  newStart : Nat
  newCount : Nat
  lines : List TaggedLine
deriving DecidableEq, Repr

/-- Split a text block into lines, preserving original order. -/
def splitLines (s : String) : List String :=
  s.splitOn "\x0a"

/-- Length of a longest common subsequence of two line sequences. -/
def lcsLen : List String → List String → Nat
  | [], _ => 0
  | _ :: _, [] => 0
  | a :: as, b :: bs =>
    if a = b then lcsLen as bs + 1
    else max (lcsLen as (b :: bs)) (lcsLen (a :: as) bs)
termination_by as bs => as.length + bs.length

/-- Modelled from the spec: LCS-based line alignment producing an edit
script; matched runs contribute `context` lines, old lines not matched are
`removed`, new lines not matched are `added`. -/
def lcsDiff : List String → List String → List TaggedLine
  | [], bs => bs.map (fun b => ⟨Tag.added, b⟩)
  | a :: as, [] => ⟨Tag.removed, a⟩ :: lcsDiff as []
  | a :: as, b :: bs =>
    if a = b then ⟨Tag.context, a⟩ :: lcsDiff as bs
    else if lcsLen (a :: as) bs ≤ lcsLen as (b :: bs) then
      ⟨Tag.removed, a⟩ :: lcsDiff as (b :: bs)
    else
      ⟨Tag.added, b⟩ :: lcsDiff (a :: as) bs
termination_by as bs => as.length + bs.length

/-- Maximal contiguous runs of non-context lines of an edit script, as
half-open index intervals, starting from index `i`. -/
def runsAux : Nat → List TaggedLine → List (Nat × Nat)
  | _, [] => []
  | i, t :: ts =>
    if t.tag = Tag.context then runsAux (i + 1) ts
    else
      match runsAux (i + 1) ts with
      | [] => [(i, i + 1)]
      | (s, e) :: rest =>
        if s = i + 1 then (i, e) :: rest else (i, i + 1) :: (s, e) :: rest

/-- The change runs of an edit script. -/
def changeRuns (script : List TaggedLine) : List (Nat × Nat) :=
  runsAux 0 script

/-- Modelled from the spec: two change runs separated by an unchanged gap of
`2 * context_lines` lines or fewer are merged into a single hunk interval;
otherwise they stay separate. -/
def mergeRuns (n : Nat) : List (Nat × Nat) → List (Nat × Nat)
  | [] => []
  | [r] => [r]
  | r1 :: r2 :: rest =>
    if r2.1 - r1.2 ≤ 2 * n then mergeRuns n ((r1.1, r2.2) :: rest)
    else r1 :: mergeRuns n (r2 :: rest)
termination_by l => l.length

/-- Number of old-content lines of a script strictly before index `i`. -/
def oldBefore (script : List TaggedLine) (i : Nat) : Nat :=
  ((script.take i).filter (fun t => t.tag ≠ Tag.added)).length

/-- Number of new-content lines of a script strictly before index `i`. -/
def newBefore (script : List TaggedLine) (i : Nat) : Nat :=
  ((script.take i).filter (fun t => t.tag ≠ Tag.removed)).length

/-- Modelled from the spec: a hunk covers a merged change run together with
up to `context_lines` unchanged lines immediately preceding and following
it, clipped at the ends of the script. -/
def hunkOf (script : List TaggedLine) (n : Nat) (r : Nat × Nat) : Hunk :=
  let lo := r.1 - n
  let hi := min script.length (r.2 + n)
  let ls := (script.take hi).drop lo
  { oldStart := oldBefore script lo + 1
    oldCount := (ls.filter (fun t => t.tag ≠ Tag.added)).length
    newStart := newBefore script lo + 1
    newCount := (ls.filter (fun t => t.tag ≠ Tag.removed)).length
    lines := ls }

/-- Modelled from the spec: hunk grouping of an edit script for a given
context size. -/
def groupHunks (n : Nat) (script : List TaggedLine) : List Hunk :=
  (mergeRuns n (changeRuns script)).map (hunkOf script n)

/-- Modelled from the spec: the Diff Engine.  If `old_content` is none the
result is a single synthetic hunk marking every line of `new_content` as
added; otherwise the LCS edit script of the two line sequences is grouped
into context-bounded hunks. -/
def computeDiff (oldContent : Option String) (newContent : String) (n : Nat) :
    List Hunk :=
  match oldContent with
  | none =>
    let ls := splitLines newContent
    [{ oldStart := 1, oldCount := 0, newStart := 1, newCount := ls.length,
       lines := ls.map (fun l => ⟨Tag.added, l⟩) }]
  | some o => groupHunks n (lcsDiff (splitLines o) (splitLines newContent))

/-- Length of the run of context lines at the head of a hunk. -/
def leadingContext (h : Hunk) : Nat :=
  (h.lines.takeWhile (fun t => t.tag == Tag.context)).length

/-- Length of the run of context lines at the tail of a hunk. -/
def trailingContext (h : Hunk) : Nat :=
  (h.lines.reverse.takeWhile (fun t => t.tag == Tag.context)).length

/-- Marker character of a rendered diff line. -/
def tagMark : Tag → String
  | Tag.context => " "
  | Tag.added => "+"
  | Tag.removed => "-"

/-- Modelled from the spec: unified-diff-style rendering of one hunk. -/
def renderHunk (h : Hunk) : String :=
  "@@ -" ++ toString h.oldStart ++ "," ++ toString h.oldCount
    ++ " +" ++ toString h.newStart ++ "," ++ toString h.newCount ++ " @@\x0a"
    ++ String.join (h.lines.map (fun t => tagMark t.tag ++ t.text ++ "\x0a"))

/-- Modelled from the spec: rendering of a whole Diff Result. -/
def renderHunks (hs : List Hunk) : String :=
  String.join (hs.map renderHunk)

/-- Modelled from the spec: a Version Record, the persisted form of a
Snapshot, addressed by sequence number; content is stored byte-for-byte.
(The captured-at timestamp plays no role in any claim and is omitted.) -/
structure VersionRecord where
  seq : Nat
  content : String
deriving DecidableEq, Repr

/-- Modelled from the spec: the Version Store, one namespace per name, the
records of a name enumerable in ascending sequence order. -/
def Store : Type :=
  String → List VersionRecord

/-- Modelled from the spec: `Latest(name)` returns the record with the
highest surviving sequence number, or none if no version exists. -/
def latest (st : Store) (name : String) : Option VersionRecord :=
  (st name).getLast?

/-- Modelled from the spec: `Save(name, content)` allocates the next
sequence number (Latest's sequence + 1, or 1 if none), writes the record
durably and returns it. -/
def save (st : Store) (name : String) (content : String) :
    VersionRecord × Store :=
  let seq := match latest st name with
    | none => 1
    | some r => r.seq + 1
  let r : VersionRecord := ⟨seq, content⟩
  (r, fun n => if n = name then st name ++ [r] else st n)

/-- Modelled from the spec: the Retention Manager's `Enforce`.  It lists the
versions of `name` ascending and deletes the oldest ones beyond the
retention count, never deleting the newest version; a deletion may fail
(`deleteOk` is false on its sequence number), in which case the record
survives, the failure is logged, and retention continues with the remaining
candidates.  Returns the new store and the logged failed sequence numbers. -/
def clean (st : Store) (name : String) (keep : Nat) (deleteOk : Nat → Bool) :
    Store × List Nat :=
  let vs := st name
  let deleteCount := vs.length - max keep 1
  let candidates := vs.take deleteCount
  let survivors := vs.drop deleteCount
  let kept := candidates.filter (fun r => ¬ deleteOk r.seq)
  let failures := kept.map (fun r => r.seq)
  (fun n => if n = name then kept ++ survivors else st n, failures)

/-- A step of the orchestrator's linear state machine. -/
inductive Step where
  | sampling
  | comparing
  | reporting
  | persisting
  | retaining
deriving DecidableEq, Repr

/-- Outcome of one process invocation: `panicked` models Go's `panic(err)`
(non-zero exit), `done` a normal return (zero exit). -/
inductive RunOutcome where
  | panicked (msg : String)
  | done
deriving DecidableEq, Repr

/-- The world main.go can mutate: the version store rooted at `data-dir`,
and whether the data directory exists (`fs.MkDir`). -/
structure WorldState where
  store : Store
  dataDirCreated : Bool

/-- Result of one run of `main`: outcome, text written to stdout, resulting
world, and the trace of orchestrator steps reached. -/
structure RunResult where
  outcome : RunOutcome
  output : String
  world : WorldState
  trace : List Step

/-- Default sampling timeout in seconds: `context.WithTimeout(...,
10*time.Second)` in `mongoInfo` (main.go line 62). -/
def samplingTimeoutSeconds : Nat := 10

/-- Embedded from main.go `main`: parse-free core of one invocation.
`sample` is the Inventory Sampler's result (`mongoInfo` output text, or its
error).  With `noDiff` set, the sampled text is printed and the run returns
(lines 34-40).  Otherwise the text is sampled into a buffer, the data dir is
created, `DiffLatest` diffs against the latest stored version,
`PrintAndSave` prints the report and saves the new version, and
`Clean(keepVersion)` runs retention with its error discarded (lines 42-58). -/
def runMain (noDiff : Bool) (sample : Except String String) (name : String)
    (contextLine keepVersion : Nat) (deleteOk : Nat → Bool)
    (w : WorldState) : RunResult :=
  if noDiff then
    match sample with
    | Except.error e => ⟨RunOutcome.panicked e, "", w, [Step.sampling]⟩
    | Except.ok text =>
        ⟨RunOutcome.done, text, w, [Step.sampling, Step.reporting]⟩
  else
    match sample with
    | Except.error e => ⟨RunOutcome.panicked e, "", w, [Step.sampling]⟩
    | Except.ok text =>
      let w1 : WorldState := { w with dataDirCreated := true }
      let oldContent := (latest w1.store name).map (fun r => r.content)
      let hunks := computeDiff oldContent text contextLine
      let report := renderHunks hunks
      let saved := save w1.store name text
      let cleaned := clean saved.2 name keepVersion deleteOk
      ⟨RunOutcome.done, report, { w1 with store := cleaned.1 },
        [Step.sampling, Step.comparing, Step.reporting, Step.persisting,
         Step.retaining]⟩

/-- Embedded from main.go: `Role` (the printed fields). -/
structure Role where
  db : String
  role : String
deriving DecidableEq, Repr

/-- Embedded from main.go: `User`.  (`mechanisms` is decoded but never
printed; kept for fidelity.) -/
structure User where
  id : String
  db : String
  mechanisms : List String
  roles : List Role
  user : String
deriving DecidableEq, Repr

/-- Embedded from main.go: `ReplSetMemberConfig`. -/
structure ReplSetMemberConfig where
  id : Int
  arbiterOnly : Bool
  buildIndexes : Bool
  hidden : Bool
  host : String
  priority : Int
  slaveDelay : Int
  votes : Int
deriving DecidableEq, Repr

/-- Embedded from main.go: `ReplSetConfig`. -/
structure ReplSetConfig where
  id : String
  members : List ReplSetMemberConfig
  protocolVersion : Int
deriving DecidableEq, Repr

/-- Embedded from main.go: `ReplMember` (time-valued fields
`lastHeartbeat`, `lastHeartbeatRecv`, `electionDate` are omitted from the
embedding; none is printed). -/
structure ReplMember where
  id : Int
  configVersion : Int
  infoMessage : String
  lastHeartbeatMessage : String
  name : String
  state : Int
  stateStr : String
  syncSourceHost : String
  syncSourceID : Int
  syncingTo : String
  uptime : Int
  health : Int
  pingMS : Int
deriving DecidableEq, Repr

/-- Embedded from main.go: `ReplSetStatus` (time-valued field `date`
omitted; not printed). -/
structure ReplSetStatus where
  members : List ReplMember
  myState : Int
  ok : Int
  set : String
  term : Int
  syncSourceHost : String
  syncSourceID : Int
  syncingTo : String
  heartbeatIntervalMillis : Int
deriving DecidableEq, Repr

/-- The line `mongoInfo` prints per database name (main.go line 78). -/
def dbLine (name : String) : String :=
  "DB: " ++ name ++ "\x0a"

/-- The line `mongoInfo` prints per user (main.go line 86). -/
def userLine (u : User) : String :=
  "USER: db=" ++ u.db ++ ", user=" ++ u.user ++ "\x0a"

/-- The line `mongoInfo` prints per role of a user (main.go line 88). -/
def userRoleLine (u : User) (r : Role) : String :=
  "USER_ROLE: db=" ++ u.db ++ ", user=" ++ u.user ++ ", role=" ++ r.db
    ++ "/" ++ r.role ++ "\x0a"

/-- The line `mongoInfo` prints per replica-set member configuration
(main.go line 97). -/
def settingLine (m : ReplSetMemberConfig) : String :=
  "SETTING: id=" ++ toString m.id ++ ", host=" ++ m.host ++ ", vote="
    ++ toString m.votes ++ ", arbiterOnly=" ++ toString m.arbiterOnly
    ++ ", buildIndexes=" ++ toString m.buildIndexes ++ ", hidden="
    ++ toString m.hidden ++ ", priority=" ++ toString m.priority ++ "\x0a"

/-- The line `mongoInfo` prints per replica-set status member (main.go line
105). -/
def replStatLine (m : ReplMember) : String :=
  "REPL_STAT: id=" ++ toString m.id ++ ", name=" ++ m.name ++ ", state="
    ++ m.stateStr ++ ", health=" ++ toString m.health ++ ", syncSourceHost="
    ++ m.syncSourceHost ++ ", syncingTo=" ++ m.syncingTo ++ "\x0a"

/-- One record line of the sampler's output, before rendering: which section
it belongs to and the data it carries. -/
inductive InfoLine where
  | db (name : String)
  | user (u : User)
  | userRole (u : User) (r : Role)
  | setting (m : ReplSetMemberConfig)
  | replStat (m : ReplMember)
deriving DecidableEq, Repr

/-- Render one sampler record line exactly as `mongoInfo` prints it. -/
def renderInfoLine : InfoLine → String
  | InfoLine.db name => dbLine name
  | InfoLine.user u => userLine u
  | InfoLine.userRole u r => userRoleLine u r
  | InfoLine.setting m => settingLine m
  | InfoLine.replStat m => replStatLine m

/-- Section rank of a sampler record line: the four sections in the order
`mongoInfo` emits them (a user's roles belong to the users section). -/
def sectionRank : InfoLine → Nat
  | InfoLine.db _ => 0
  | InfoLine.user _ => 1
  | InfoLine.userRole _ _ => 1
  | InfoLine.setting _ => 2
  | InfoLine.replStat _ => 3

/-- Embedded from main.go `mongoInfo` (lines 73-106): the ordered sequence
of record lines written on a successful run, given the four query results
in the order the code issues them. -/
def mongoInfoLines (databaseNames : List String) (users : List User)
    (conf : ReplSetConfig) (replStat : ReplSetStatus) : List InfoLine :=
  databaseNames.map InfoLine.db
    ++ users.flatMap (fun u =>
        InfoLine.user u :: u.roles.map (fun r => InfoLine.userRole u r))
    ++ conf.members.map InfoLine.setting
    ++ replStat.members.map InfoLine.replStat

/-- The text block a successful `mongoInfo` run writes. -/
def mongoInfoText (databaseNames : List String) (users : List User)
    (conf : ReplSetConfig) (replStat : ReplSetStatus) : String :=
  String.join ((mongoInfoLines databaseNames users conf replStat).map
    renderInfoLine)

/-- Embedded from main.go `mongoInfo`: control flow over the four query
results, writing through `write` (an `io.Writer` whose write may fail —
`none` models a write error).  Every `fmt.Fprintf` result is discarded
(`_, _ =`), so the returned error can only come from a query. -/
def mongoInfo (databaseNames : Except String (List String))
    (users : Except String (List User))
    (conf : Except String ReplSetConfig)
    (replStat : Except String ReplSetStatus)
    (write : String → Option Unit) : Except String Unit :=
  match databaseNames with
  | Except.error e => Except.error e
  | Except.ok names =>
    let _ := names.map (fun name => write (dbLine name))
    match users with
    | Except.error e => Except.error e
    | Except.ok us =>
      let _ := us.map (fun u =>
        (write (userLine u), u.roles.map (fun r => write (userRoleLine u r))))
      match conf with
      | Except.error e => Except.error e
      | Except.ok c =>
        let _ := c.members.map (fun m => write (settingLine m))
        match replStat with
        | Except.error e => Except.error e
        | Except.ok stat =>
          let _ := stat.members.map (fun m => write (replStatLine m))
          Except.ok ()

/-- Fixture: a run of two context lines. -/
def ctxA₀ : List TaggedLine :=
  [⟨Tag.context, "a1"⟩, ⟨Tag.context, "a2"⟩]

/-- Fixture: a one-line change run (a removal). -/
def cs1₀ : List TaggedLine :=
  [⟨Tag.removed, "x"⟩]

/-- Fixture: an unchanged gap of three context lines. -/
def ctxG₀ : List TaggedLine :=
  [⟨Tag.context, "g1"⟩, ⟨Tag.context, "g2"⟩, ⟨Tag.context, "g3"⟩]

/-- Fixture: a one-line change run (an addition). -/
def cs2₀ : List TaggedLine :=
  [⟨Tag.added, "y"⟩]

/-! ## Helper lemmas -/

theorem runsAux_all_context (ts : List TaggedLine)
    (h : ∀ t ∈ ts, t.tag = Tag.context) : ∀ i, runsAux i ts = [] := by
  induction ts with
  | nil => intro i; rfl
  | cons t ts ih =>
    intro i
    have ht : t.tag = Tag.context := h t (List.mem_cons_self t ts)
    simp only [runsAux, ht, if_pos]
    exact ih (fun x hx => h x (List.mem_cons_of_mem t hx)) (i + 1)

theorem lcsDiff_self (xs : List String) :
    lcsDiff xs xs = xs.map (fun a => ⟨Tag.context, a⟩) := by
  induction xs with
  | nil => simp [lcsDiff]
  | cons a as ih => simp [lcsDiff, ih]

theorem computeDiff_self (s : String) (n : Nat) :
    computeDiff (some s) s n = [] := by
  have h : ∀ t ∈ (splitLines s).map
      (fun a => (⟨Tag.context, a⟩ : TaggedLine)), t.tag = Tag.context := by
    intro t ht
    simp only [List.mem_map] at ht
    obtain ⟨a, _, rfl⟩ := ht
    rfl
  simp [computeDiff, groupHunks, changeRuns, lcsDiff_self,
    runsAux_all_context _ h, mergeRuns]

theorem save_latest (st : Store) (name content : String) :
    latest (save st name content).2 name = some (save st name content).1 := by
  simp [latest, save, List.getLast?_concat]

theorem getLast?_append_right {α : Type} (l₁ l₂ : List α) (h : l₂ ≠ []) :
    (l₁ ++ l₂).getLast? = l₂.getLast? := by
  obtain ⟨b, t, rfl⟩ := List.exists_cons_of_ne_nil h
  induction l₁ with
  | nil => rfl
  | cons a l₁ ih =>
    have hne2 : l₁ ++ b :: t ≠ [] := by simp
    obtain ⟨c, u, hcu⟩ := List.exists_cons_of_ne_nil hne2
    rw [List.cons_append, hcu, List.getLast?_cons_cons, ← hcu, ih]

/-- What retention leaves in a name's namespace: the candidates whose
deletion failed, followed by the retained newest versions. -/
theorem clean_store_eq (st : Store) (name : String) (keep : Nat)
    (dok : Nat → Bool) :
    (clean st name keep dok).1 name =
      ((st name).take ((st name).length - max keep 1)).filter
        (fun r => ¬ dok r.seq)
      ++ (st name).drop ((st name).length - max keep 1) := by
  simp [clean]

theorem save_store_eq (st : Store) (name content : String) :
    (save st name content).2 name = st name ++ [(save st name content).1] := by
  simp [save]

theorem clean_latest (st : Store) (name : String) (keep : Nat)
    (dok : Nat → Bool) :
    latest (clean st name keep dok).1 name = latest st name := by
  rw [latest, latest, clean_store_eq]
  cases hv : st name with
  | nil => simp
  | cons v vs =>
    have h1 : 1 ≤ max keep 1 := Nat.le_max_right keep 1
    have hdrop : (v :: vs).drop ((v :: vs).length - max keep 1) ≠ [] := by
      intro hcon
      have hlen2 := congrArg List.length hcon
      rw [List.length_drop] at hlen2
      simp only [List.length_nil, List.length_cons] at hlen2
      omega
    rw [getLast?_append_right _ _ hdrop]
    conv_rhs => rw [← List.take_append_drop ((v :: vs).length - max keep 1)
      (v :: vs)]
    rw [getLast?_append_right _ _ hdrop]

/-! ## Claim theorems -/

/-- Claim C1: for every non-empty `new_content`, a first capture (no stored
old content) yields exactly one synthetic hunk whose lines are every line of
`new_content` tagged `added`, with zero leading context lines. -/
theorem c1_first_capture_all_added (newContent : String) (n : Nat)
    (_hne : newContent ≠ "") :
    ∃ h : Hunk, computeDiff none newContent n = [h] ∧
      h.lines.map (fun t => t.text) = splitLines newContent ∧
      (∀ t ∈ h.lines, t.tag = Tag.added) ∧
      leadingContext h = 0 := by
  refine ⟨_, rfl, ?_, ?_, ?_⟩
  · simp [computeDiff, List.map_map, Function.comp_def]
  · intro t ht
    simp only [computeDiff, List.mem_map] at ht
    obtain ⟨a, _, rfl⟩ := ht
    rfl
  · simp only [computeDiff, leadingContext]
    cases hs : splitLines newContent with
    | nil => simp
    | cons a as => simp [List.takeWhile_cons]

/-- Witness for C1 at the first-run scenario text of the spec. -/
theorem c1_first_capture_all_added_witness :
    ∃ h : Hunk, computeDiff none "DB: admin\x0aDB: test\x0a" 2 = [h] ∧
      h.lines.map (fun t => t.text) = splitLines "DB: admin\x0aDB: test\x0a" ∧
      (∀ t ∈ h.lines, t.tag = Tag.added) ∧
      leadingContext h = 0 :=
  c1_first_capture_all_added "DB: admin\x0aDB: test\x0a" 2 (by decide)

/-- Claim C3: capturing content identical to the stored Latest yields an
empty hunk sequence, while the run still persists a new version record. -/
theorem c3_noop_capture_empty_diff_still_persists
    (w : WorldState) (name text : String) (ctx keep : Nat)
    (deleteOk : Nat → Bool) (r : VersionRecord)
    (hlatest : latest w.store name = some r) (hc : r.content = text) :
    computeDiff ((latest w.store name).map (fun v => v.content)) text ctx
        = [] ∧
    (runMain false (Except.ok text) name ctx keep deleteOk w).outcome
        = RunOutcome.done ∧
    (runMain false (Except.ok text) name ctx keep deleteOk w).output
        = renderHunks [] ∧
    latest (runMain false (Except.ok text) name ctx keep deleteOk
        w).world.store name = some ⟨r.seq + 1, text⟩ := by
  have hdiff : computeDiff ((latest w.store name).map (fun v => v.content))
      text ctx = [] := by
    rw [hlatest]
    show computeDiff (some r.content) text ctx = []
    rw [hc]
    exact computeDiff_self text ctx
  refine ⟨hdiff, rfl, ?_, ?_⟩
  · show renderHunks (computeDiff ((latest w.store name).map
      (fun v => v.content)) text ctx) = renderHunks []
    rw [hdiff]
  · show latest (clean (save w.store name text).2 name keep deleteOk).1 name
      = some ⟨r.seq + 1, text⟩
    rw [clean_latest, save_latest]
    simp only [save, hlatest]

/-- Witness for C3: a second capture of the same one-line text. -/
theorem c3_noop_capture_witness :
    computeDiff ((latest (fun n => if n = "mongodb"
        then [⟨1, "DB: admin\x0a"⟩] else []) "mongodb").map
        (fun v => v.content)) "DB: admin\x0a" 2 = [] ∧
    (runMain false (Except.ok "DB: admin\x0a") "mongodb" 2 100
        (fun _ => true)
        ⟨fun n => if n = "mongodb" then [⟨1, "DB: admin\x0a"⟩] else [],
          true⟩).outcome = RunOutcome.done ∧
    (runMain false (Except.ok "DB: admin\x0a") "mongodb" 2 100
        (fun _ => true)
        ⟨fun n => if n = "mongodb" then [⟨1, "DB: admin\x0a"⟩] else [],
          true⟩).output = renderHunks [] ∧
    latest (runMain false (Except.ok "DB: admin\x0a") "mongodb" 2 100
        (fun _ => true)
        ⟨fun n => if n = "mongodb" then [⟨1, "DB: admin\x0a"⟩] else [],
          true⟩).world.store "mongodb" = some ⟨2, "DB: admin\x0a"⟩ :=
  c3_noop_capture_empty_diff_still_persists
    ⟨fun n => if n = "mongodb" then [⟨1, "DB: admin\x0a"⟩] else [], true⟩
    "mongodb" "DB: admin\x0a" 2 100 (fun _ => true) ⟨1, "DB: admin\x0a"⟩
    rfl rfl

/-- Claim C4: round-trip fidelity of the Version Store — after `Save(name,
C)`, `Latest(name)` returns a record whose content is exactly `C`. -/
theorem c4_roundtrip_fidelity (st : Store) (name content : String) :
    (latest (save st name content).2 name).map (fun r => r.content)
      = some content := by
  rw [save_latest]
  rfl

/-- Claim C5: with the no-diff flag set, the run emits exactly the sampled
text, mutates neither the version store nor the data directory, and never
reaches the Persisting or Retaining steps. -/
theorem c5_report_only_mode (text name : String) (ctx keep : Nat)
    (deleteOk : Nat → Bool) (w : WorldState) :
    (runMain true (Except.ok text) name ctx keep deleteOk w).output = text ∧
    (runMain true (Except.ok text) name ctx keep deleteOk w).world = w ∧
    (runMain true (Except.ok text) name ctx keep deleteOk
        w).world.dataDirCreated = w.dataDirCreated ∧
    Step.persisting ∉
      (runMain true (Except.ok text) name ctx keep deleteOk w).trace ∧
    Step.retaining ∉
      (runMain true (Except.ok text) name ctx keep deleteOk w).trace := by
  refine ⟨rfl, rfl, rfl, ?_, ?_⟩ <;> simp [runMain]

/-- Claim C6: sampling runs under the default 10-second timeout, and a
sampling failure aborts the run with no further side effects: the world is
untouched and neither Comparing, Persisting nor Retaining is reached. -/
theorem c6_sampling_failure_aborts_cleanly (noDiff : Bool) (e name : String)
    (ctx keep : Nat) (deleteOk : Nat → Bool) (w : WorldState) :
    samplingTimeoutSeconds = 10 ∧
    (runMain noDiff (Except.error e) name ctx keep deleteOk w).outcome
      = RunOutcome.panicked e ∧
    (runMain noDiff (Except.error e) name ctx keep deleteOk w).world = w ∧
    (runMain noDiff (Except.error e) name ctx keep deleteOk w).trace
      = [Step.sampling] := by
  cases noDiff <;> exact ⟨rfl, rfl, rfl, rfl⟩

/-- Claim C10: `mongoInfo` discards every write result, so when all four
queries succeed it returns no error regardless of the writer — even one
whose every write fails. -/
theorem c10_write_failures_ignored (write : String → Option Unit)
    (dbs : List String) (us : List User) (conf : ReplSetConfig)
    (stat : ReplSetStatus) :
    mongoInfo (Except.ok dbs) (Except.ok us) (Except.ok conf)
      (Except.ok stat) write = Except.ok () := rfl

theorem pairwise_le_of_const (c : Nat) (l : List Nat) (h : ∀ x ∈ l, x = c) :
    l.Pairwise (· ≤ ·) := by
  induction l with
  | nil => exact List.Pairwise.nil
  | cons a l ih =>
    refine List.Pairwise.cons ?_ (ih fun x hx => h x (List.mem_cons_of_mem a hx))
    intro b hb
    rw [h a (List.mem_cons_self a l), h b (List.mem_cons_of_mem a hb)]

theorem exists_append_chunk (p a : String) (h : ∃ r, a = p ++ r)
    (c : String) : ∃ r, a ++ c = p ++ r := by
  obtain ⟨r, rfl⟩ := h
  exact ⟨r ++ c, String.append_assoc p r c⟩

theorem renderInfoLine_marked (l : InfoLine) :
    ∃ rest : String,
      renderInfoLine l = "DB: " ++ rest ∨
      renderInfoLine l = "USER: " ++ rest ∨
      renderInfoLine l = "USER_ROLE: " ++ rest ∨
      renderInfoLine l = "SETTING: " ++ rest ∨
      renderInfoLine l = "REPL_STAT: " ++ rest := by
  cases l with
  | db name =>
    have h : ∃ r, dbLine name = "DB: " ++ r := by
      rw [dbLine]
      repeat apply exists_append_chunk
      exact ⟨"", by decide⟩
    obtain ⟨r, hr⟩ := h
    exact ⟨r, Or.inl hr⟩
  | user u =>
    have h : ∃ r, userLine u = "USER: " ++ r := by
      rw [userLine]
      repeat apply exists_append_chunk
      exact ⟨"db=", by decide⟩
    obtain ⟨r, hr⟩ := h
    exact ⟨r, Or.inr (Or.inl hr)⟩
  | userRole u rl =>
    have h : ∃ r, userRoleLine u rl = "USER_ROLE: " ++ r := by
      rw [userRoleLine]
      repeat apply exists_append_chunk
      exact ⟨"db=", by decide⟩
    obtain ⟨r, hr⟩ := h
    exact ⟨r, Or.inr (Or.inr (Or.inl hr))⟩
  | setting m =>
    have h : ∃ r, settingLine m = "SETTING: " ++ r := by
      rw [settingLine]
      repeat apply exists_append_chunk
      exact ⟨"id=", by decide⟩
    obtain ⟨r, hr⟩ := h
    exact ⟨r, Or.inr (Or.inr (Or.inr (Or.inl hr)))⟩
  | replStat m =>
    have h : ∃ r, replStatLine m = "REPL_STAT: " ++ r := by
      rw [replStatLine]
      repeat apply exists_append_chunk
      exact ⟨"id=", by decide⟩
    obtain ⟨r, hr⟩ := h
    exact ⟨r, Or.inr (Or.inr (Or.inr (Or.inr hr)))⟩

/-- Claim C8: the sampler's emitted block is an ordered sequence of lines,
one record per line with a fixed stable marker per section, in the fixed
section order (databases, then users with each user's roles immediately
following, then member configuration, then runtime status). -/
theorem c8_sampler_output_sections (dbs : List String) (us : List User)
    (conf : ReplSetConfig) (stat : ReplSetStatus) :
    ((mongoInfoLines dbs us conf stat).map sectionRank).Pairwise (· ≤ ·) ∧
    (∀ l ∈ mongoInfoLines dbs us conf stat, ∃ rest : String,
      renderInfoLine l = "DB: " ++ rest ∨
      renderInfoLine l = "USER: " ++ rest ∨
      renderInfoLine l = "USER_ROLE: " ++ rest ∨
      renderInfoLine l = "SETTING: " ++ rest ∨
      renderInfoLine l = "REPL_STAT: " ++ rest) ∧
    (∀ u ∈ us, ∃ pre post : List InfoLine,
      mongoInfoLines dbs us conf stat =
        pre ++ (InfoLine.user u ::
          u.roles.map (fun r => InfoLine.userRole u r)) ++ post) ∧
    mongoInfoText dbs us conf stat =
      String.join ((mongoInfoLines dbs us conf stat).map renderInfoLine) := by
  have hA : ∀ x ∈ (dbs.map InfoLine.db).map sectionRank, x = 0 := by
    intro x hx
    rw [List.map_map] at hx
    simp only [List.mem_map] at hx
    obtain ⟨a, _, rfl⟩ := hx
    rfl
  have hB : ∀ x ∈ (us.flatMap (fun u => InfoLine.user u ::
      u.roles.map (fun r => InfoLine.userRole u r))).map sectionRank,
      x = 1 := by
    intro x hx
    simp only [List.mem_map, List.mem_flatMap] at hx
    obtain ⟨l, ⟨u, _, hl⟩, rfl⟩ := hx
    rcases List.mem_cons.mp hl with h | h
    · rw [h]; rfl
    · simp only [List.mem_map] at h
      obtain ⟨r, _, rfl⟩ := h
      rfl
  have hC : ∀ x ∈ (conf.members.map InfoLine.setting).map sectionRank,
      x = 2 := by
    intro x hx
    rw [List.map_map] at hx
    simp only [List.mem_map] at hx
    obtain ⟨a, _, rfl⟩ := hx
    rfl
  have hD : ∀ x ∈ (stat.members.map InfoLine.replStat).map sectionRank,
      x = 3 := by
    intro x hx
    rw [List.map_map] at hx
    simp only [List.mem_map] at hx
    obtain ⟨a, _, rfl⟩ := hx
    rfl
  refine ⟨?_, ?_, ?_, rfl⟩
  · simp only [mongoInfoLines, List.map_append, List.pairwise_append]
    refine ⟨⟨⟨pairwise_le_of_const 0 _ hA, pairwise_le_of_const 1 _ hB, ?_⟩,
      pairwise_le_of_const 2 _ hC, ?_⟩, pairwise_le_of_const 3 _ hD, ?_⟩
    · intro x hx y hy
      rw [hA x hx, hB y hy]
      omega
    · intro x hx y hy
      rcases List.mem_append.mp hx with h | h
      · rw [hA x h, hC y hy]; omega
      · rw [hB x h, hC y hy]; omega
    · intro x hx y hy
      rcases List.mem_append.mp hx with h | h
      · rcases List.mem_append.mp h with h2 | h2
        · rw [hA x h2, hD y hy]; omega
        · rw [hB x h2, hD y hy]; omega
      · rw [hC x h, hD y hy]; omega
  · intro l _
    exact renderInfoLine_marked l
  · intro u hu
    obtain ⟨us₁, us₂, rfl⟩ := List.append_of_mem hu
    refine ⟨dbs.map InfoLine.db ++ us₁.flatMap (fun v => InfoLine.user v ::
      v.roles.map (fun r => InfoLine.userRole v r)),
      us₂.flatMap (fun v => InfoLine.user v ::
        v.roles.map (fun r => InfoLine.userRole v r))
      ++ conf.members.map InfoLine.setting
      ++ stat.members.map InfoLine.replStat, ?_⟩
    simp [mongoInfoLines, List.flatMap_append, List.append_assoc]

/-- Claim C9 evaluation: `mongoInfo` performs no sorting — database names
are emitted in the order the driver returned them, so two runs whose driver
results differ only in order produce different text blocks. -/
theorem c9_unsorted_emission :
    mongoInfoText ["test", "admin"] [] ⟨"rs0", [], 1⟩
        ⟨[], 1, 1, "rs0", 1, "", 0, "", 2000⟩ =
      "DB: test\x0aDB: admin\x0a" ∧
    mongoInfoText ["test", "admin"] [] ⟨"rs0", [], 1⟩
        ⟨[], 1, 1, "rs0", 1, "", 0, "", 2000⟩ ≠
      mongoInfoText ["admin", "test"] [] ⟨"rs0", [], 1⟩
        ⟨[], 1, 1, "rs0", 1, "", 0, "", 2000⟩ := by
  exact ⟨rfl, by decide⟩

theorem clean_failures_eq (st : Store) (name : String) (keep : Nat)
    (dok : Nat → Bool) :
    (clean st name keep dok).2 =
      (((st name).take ((st name).length - max keep 1)).filter
        (fun r => ¬ dok r.seq)).map (fun r => r.seq) := by
  simp [clean]

theorem nodup_of_seq_increasing (l : List VersionRecord)
    (h : l.Pairwise (fun a b => a.seq < b.seq)) : l.Nodup := by
  refine h.imp ?_
  intro a b hab hEq
  rw [hEq] at hab
  exact Nat.lt_irrefl _ hab

/-- Claim C7: a retention deletion failure is logged and retention continues
with the remaining candidates; the failure neither changes the run outcome,
nor the emitted report, nor rolls back the just-saved version. -/
theorem c7_retention_failure_nonfatal
    (w : WorldState) (name text : String) (ctx keep : Nat)
    (deleteOk : Nat → Bool)
    (hw : ((save w.store name text).2 name).Pairwise
      (fun a b => a.seq < b.seq)) :
    (runMain false (Except.ok text) name ctx keep deleteOk w).outcome
      = RunOutcome.done ∧
    (runMain false (Except.ok text) name ctx keep deleteOk w).output
      = (runMain false (Except.ok text) name ctx keep
          (fun _ => true) w).output ∧
    latest (runMain false (Except.ok text) name ctx keep deleteOk
        w).world.store name = some (save w.store name text).1 ∧
    (∀ r ∈ ((save w.store name text).2 name).take
        (((save w.store name text).2 name).length - max keep 1),
      (¬ deleteOk r.seq →
        r.seq ∈ (clean (save w.store name text).2 name keep deleteOk).2) ∧
      (deleteOk r.seq →
        r ∉ (runMain false (Except.ok text) name ctx keep deleteOk
          w).world.store name)) := by
  refine ⟨rfl, rfl, ?_, ?_⟩
  · show latest (clean (save w.store name text).2 name keep deleteOk).1 name
      = some (save w.store name text).1
    rw [clean_latest, save_latest]
  · intro r hr
    constructor
    · intro hfail
      rw [clean_failures_eq]
      exact List.mem_map.mpr ⟨r, List.mem_filter.mpr ⟨hr, by simpa using hfail⟩, rfl⟩
    · intro hok
      show r ∉ (clean (save w.store name text).2 name keep deleteOk).1 name
      rw [clean_store_eq]
      intro hmem
      rcases List.mem_append.mp hmem with hkept | hsurv
      · have := (List.mem_filter.mp hkept).2
        simp only [decide_eq_true_eq] at this
        exact this hok
      · have hnd := nodup_of_seq_increasing _ hw
        have hdisj : ((save w.store name text).2 name).take
            (((save w.store name text).2 name).length - max keep 1)
            |>.Disjoint (((save w.store name text).2 name).drop
              (((save w.store name text).2 name).length - max keep 1)) := by
          apply List.disjoint_of_nodup_append
          rw [List.take_append_drop]
          exact hnd
        exact hdisj hr hsurv

/-- Witness for C7: a store holding versions 1 and 2, keep 1; after saving
version 3 the retention candidates are versions 1 and 2, deletion of
version 1 fails while version 2 is deleted. -/
theorem c7_retention_failure_nonfatal_witness :
    (runMain false (Except.ok "z") "mongodb" 2 1 (fun s => s == 2)
        ⟨fun n => if n = "mongodb" then [⟨1, "x"⟩, ⟨2, "y"⟩] else [],
          false⟩).outcome = RunOutcome.done ∧
    (runMain false (Except.ok "z") "mongodb" 2 1 (fun s => s == 2)
        ⟨fun n => if n = "mongodb" then [⟨1, "x"⟩, ⟨2, "y"⟩] else [],
          false⟩).output
      = (runMain false (Except.ok "z") "mongodb" 2 1 (fun _ => true)
          ⟨fun n => if n = "mongodb" then [⟨1, "x"⟩, ⟨2, "y"⟩] else [],
            false⟩).output ∧
    latest (runMain false (Except.ok "z") "mongodb" 2 1 (fun s => s == 2)
        ⟨fun n => if n = "mongodb" then [⟨1, "x"⟩, ⟨2, "y"⟩] else [],
          false⟩).world.store "mongodb"
      = some (save (fun n => if n = "mongodb" then [⟨1, "x"⟩, ⟨2, "y"⟩]
          else []) "mongodb" "z").1 ∧
    (∀ r ∈ ((save (fun n => if n = "mongodb" then [⟨1, "x"⟩, ⟨2, "y"⟩]
        else []) "mongodb" "z").2 "mongodb").take
        (((save (fun n => if n = "mongodb" then [⟨1, "x"⟩, ⟨2, "y"⟩]
          else []) "mongodb" "z").2 "mongodb").length - max 1 1),
      (¬ (fun s => s == 2) r.seq →
        r.seq ∈ (clean (save (fun n => if n = "mongodb"
          then [⟨1, "x"⟩, ⟨2, "y"⟩] else []) "mongodb" "z").2 "mongodb" 1
          (fun s => s == 2)).2) ∧
      ((fun s => s == 2) r.seq →
        r ∉ (runMain false (Except.ok "z") "mongodb" 2 1 (fun s => s == 2)
          ⟨fun n => if n = "mongodb" then [⟨1, "x"⟩, ⟨2, "y"⟩] else [],
            false⟩).world.store "mongodb")) :=
  c7_retention_failure_nonfatal
    ⟨fun n => if n = "mongodb" then [⟨1, "x"⟩, ⟨2, "y"⟩] else [], false⟩
    "mongodb" "z" 2 1 (fun s => s == 2) (by decide)

/-! ## Edit-script run structure (for the context-bound and hunk-merge
claim) -/

theorem runsAux_head_start (ts : List TaggedLine) :
    ∀ i s e rest, runsAux i ts = (s, e) :: rest → i ≤ s := by
  induction ts with
  | nil =>
    intro i s e rest h
    exact absurd h (by simp [runsAux])
  | cons t ts ih =>
    intro i s e rest h
    by_cases hc : t.tag = Tag.context
    · simp only [runsAux] at h
      rw [if_pos hc] at h
      exact Nat.le_of_succ_le (ih (i + 1) s e rest h)
    · simp only [runsAux] at h
      rw [if_neg hc] at h
      cases hm : runsAux (i + 1) ts with
      | nil =>
        rw [hm] at h
        simp at h
        omega
      | cons p rest2 =>
        obtain ⟨s2, e2⟩ := p
        rw [hm] at h
        by_cases hs : s2 = i + 1
        · simp [hs] at h
          omega
        · simp [hs] at h
          omega

theorem runsAux_context_skip (ctx : List TaggedLine)
    (hc : ∀ t ∈ ctx, t.tag = Tag.context) (ts : List TaggedLine) :
    ∀ i, runsAux i (ctx ++ ts) = runsAux (i + ctx.length) ts := by
  induction ctx with
  | nil => intro i; simp
  | cons c ctx ih =>
    intro i
    have h1 : c.tag = Tag.context := hc c (List.mem_cons_self c ctx)
    rw [List.cons_append]
    simp only [runsAux, h1, if_pos]
    rw [ih (fun t ht => hc t (List.mem_cons_of_mem c ht)) (i + 1)]
    congr 1
    simp [List.length_cons]
    omega

theorem runsAux_change_all (chg : List TaggedLine) (hne : chg ≠ [])
    (hall : ∀ t ∈ chg, t.tag ≠ Tag.context) :
    ∀ i, runsAux i chg = [(i, i + chg.length)] := by
  induction chg with
  | nil => exact absurd rfl hne
  | cons c chg ih =>
    intro i
    have h1 : c.tag ≠ Tag.context := hall c (List.mem_cons_self c chg)
    simp only [runsAux]
    rw [if_neg h1]
    cases chg with
    | nil => simp [runsAux]
    | cons d chg2 =>
      rw [ih (by simp) (fun t ht => hall t (List.mem_cons_of_mem c ht))
        (i + 1)]
      simp only [List.length_cons]
      simp
      omega

theorem runsAux_change_block (chg : List TaggedLine) (hne : chg ≠ [])
    (hall : ∀ t ∈ chg, t.tag ≠ Tag.context) (x : TaggedLine)
    (hx : x.tag = Tag.context) (ts : List TaggedLine) :
    ∀ i, runsAux i (chg ++ x :: ts) =
      (i, i + chg.length) :: runsAux (i + chg.length + 1) ts := by
  induction chg with
  | nil => exact absurd rfl hne
  | cons c chg ih =>
    intro i
    have h1 : c.tag ≠ Tag.context := hall c (List.mem_cons_self c chg)
    rw [List.cons_append]
    simp only [runsAux]
    rw [if_neg h1]
    cases chg with
    | nil =>
      have hx2 : runsAux (i + 1) (x :: ts) = runsAux (i + 2) ts := by
        simp only [runsAux, hx, if_pos]
      simp only [List.nil_append]
      rw [hx2]
      cases hm : runsAux (i + 2) ts with
      | nil =>
        simp
        exact hm
      | cons p rest =>
        obtain ⟨s2, e2⟩ := p
        have hs2 : i + 2 ≤ s2 := runsAux_head_start ts (i + 2) s2 e2 rest hm
        have hne2 : ¬ s2 = i + 1 := by omega
        simp [hne2]
        exact hm.symm
    | cons d chg2 =>
      rw [ih (by simp) (fun t ht => hall t (List.mem_cons_of_mem c ht))
        (i + 1)]
      have e1 : i + 1 + (d :: chg2).length = i + (c :: d :: chg2).length := by
        simp only [List.length_cons]
        omega
      rw [e1]
      simp

theorem runsAux_change_then_context (chg : List TaggedLine) (hne : chg ≠ [])
    (hall : ∀ t ∈ chg, t.tag ≠ Tag.context) (ctx : List TaggedLine)
    (hctx : ∀ t ∈ ctx, t.tag = Tag.context) :
    ∀ i, runsAux i (chg ++ ctx) = [(i, i + chg.length)] := by
  intro i
  cases ctx with
  | nil => rw [List.append_nil]; exact runsAux_change_all chg hne hall i
  | cons x ctx2 =>
    rw [runsAux_change_block chg hne hall x
      (hctx x (List.mem_cons_self x ctx2)) ctx2 i]
    rw [runsAux_all_context ctx2
      (fun t ht => hctx t (List.mem_cons_of_mem x ht))]

theorem changeRuns_two_blocks (ctxA ctxG ctxB cs1 cs2 : List TaggedLine)
    (hA : ∀ t ∈ ctxA, t.tag = Tag.context)
    (hG : ∀ t ∈ ctxG, t.tag = Tag.context)
    (hB : ∀ t ∈ ctxB, t.tag = Tag.context)
    (hc1 : ∀ t ∈ cs1, t.tag ≠ Tag.context) (h1n : cs1 ≠ [])
    (hc2 : ∀ t ∈ cs2, t.tag ≠ Tag.context) (h2n : cs2 ≠ [])
    (hGn : ctxG ≠ []) :
    changeRuns (ctxA ++ cs1 ++ ctxG ++ cs2 ++ ctxB) =
      [(ctxA.length, ctxA.length + cs1.length),
       (ctxA.length + cs1.length + ctxG.length,
        ctxA.length + cs1.length + ctxG.length + cs2.length)] := by
  obtain ⟨x, ctxG2, rfl⟩ := List.exists_cons_of_ne_nil hGn
  rw [changeRuns]
  have hassoc : ctxA ++ cs1 ++ (x :: ctxG2) ++ cs2 ++ ctxB
      = ctxA ++ (cs1 ++ x :: (ctxG2 ++ (cs2 ++ ctxB))) := by
    simp [List.append_assoc]
  rw [hassoc]
  rw [runsAux_context_skip ctxA hA _ 0]
  rw [runsAux_change_block cs1 h1n hc1 x
    (hG x (List.mem_cons_self x ctxG2)) _ _]
  rw [runsAux_context_skip ctxG2
    (fun t ht => hG t (List.mem_cons_of_mem x ht)) _ _]
  rw [runsAux_change_then_context cs2 h2n hc2 ctxB hB _]
  simp only [List.length_cons, List.cons.injEq, Prod.mk.injEq, and_true,
    List.nil_eq]
  omega

theorem isCtx_true (t : TaggedLine) (h : t.tag = Tag.context) :
    (t.tag == Tag.context) = true := by simp [h]

theorem isCtx_false (t : TaggedLine) (h : t.tag ≠ Tag.context) :
    (t.tag == Tag.context) = false := by simp [h]

theorem takeWhile_append_all {α : Type} (p : α → Bool) (l₁ l₂ : List α)
    (h : ∀ x ∈ l₁, p x = true) :
    (l₁ ++ l₂).takeWhile p = l₁ ++ l₂.takeWhile p := by
  induction l₁ with
  | nil => simp
  | cons a l₁ ih =>
    rw [List.cons_append, List.takeWhile_cons,
      h a (List.mem_cons_self a l₁)]
    simp only [if_true]
    rw [ih (fun x hx => h x (List.mem_cons_of_mem a hx))]
    rfl

theorem takeWhile_head_false {α : Type} (p : α → Bool) (a : α) (l : List α)
    (h : p a = false) : (a :: l).takeWhile p = [] := by
  simp [List.takeWhile_cons, h]

theorem leading_len (pre : List TaggedLine) (c : TaggedLine)
    (mid suf : List TaggedLine) (hpre : ∀ t ∈ pre, t.tag = Tag.context)
    (hc : c.tag ≠ Tag.context) :
    ((pre ++ (c :: mid) ++ suf).takeWhile
      (fun t => t.tag == Tag.context)).length = pre.length := by
  rw [List.append_assoc,
    takeWhile_append_all _ _ _ (fun x hx => isCtx_true x (hpre x hx)),
    List.cons_append,
    takeWhile_head_false _ c _ (isCtx_false c hc)]
  simp

theorem trailing_len (v suf : List TaggedLine) (c : TaggedLine)
    (hsuf : ∀ t ∈ suf, t.tag = Tag.context) (hc : c.tag ≠ Tag.context) :
    (((v ++ [c] ++ suf).reverse).takeWhile
      (fun t => t.tag == Tag.context)).length = suf.length := by
  have h1 : (v ++ [c] ++ suf).reverse = suf.reverse ++ (c :: v.reverse) := by
    simp
  rw [h1, takeWhile_append_all _ _ _
      (fun x hx => isCtx_true x (hsuf x (List.mem_reverse.mp hx))),
    takeWhile_head_false _ c _ (isCtx_false c hc)]
  simp

theorem slice_shape (a x b2 : List TaggedLine) (lo m : Nat)
    (hlo : lo ≤ a.length) (_hm : m ≤ b2.length) :
    ((a ++ x ++ b2).take (a.length + x.length + m)).drop lo
      = a.drop lo ++ x ++ b2.take m := by
  have h1 : (a ++ x ++ b2).take (a.length + x.length + m)
      = (a ++ x) ++ b2.take m := by
    rw [List.take_append_eq_append_take]
    rw [List.take_of_length_le (by simp [List.length_append])]
    congr 1
    simp [List.length_append]
  rw [h1, List.append_assoc, List.drop_append_eq_append_drop]
  have h2 : lo - a.length = 0 := by omega
  rw [h2, List.drop_zero, List.append_assoc]

theorem mergeRuns_pair (n a b c d : Nat) :
    mergeRuns n [(a, b), (c, d)] =
      if c - b ≤ 2 * n then [(a, d)] else [(a, b), (c, d)] := by
  simp [mergeRuns]

theorem hunkOf_lines (script : List TaggedLine) (n s e : Nat) :
    (hunkOf script n (s, e)).lines =
      (script.take (min script.length (e + n))).drop (s - n) := rfl

/-- Claim C2: for an edit script consisting of two change runs separated by
an unchanged gap, hunk grouping merges them into one hunk when the gap is
at most `2 * context_lines` and keeps them separate otherwise, and every
hunk's leading and trailing context run has length
`min(context_lines, available unchanged lines)`. -/
theorem c2_context_bound_and_merge (n : Nat)
    (ctxA ctxG ctxB cs1 cs2 : List TaggedLine)
    (hA : ∀ t ∈ ctxA, t.tag = Tag.context)
    (hG : ∀ t ∈ ctxG, t.tag = Tag.context)
    (hB : ∀ t ∈ ctxB, t.tag = Tag.context)
    (hc1 : ∀ t ∈ cs1, t.tag ≠ Tag.context) (h1n : cs1 ≠ [])
    (hc2 : ∀ t ∈ cs2, t.tag ≠ Tag.context) (h2n : cs2 ≠ [])
    (hGn : ctxG ≠ []) :
    (ctxG.length ≤ 2 * n →
      ∃ h : Hunk,
        groupHunks n (ctxA ++ cs1 ++ ctxG ++ cs2 ++ ctxB) = [h] ∧
        leadingContext h = min n ctxA.length ∧
        trailingContext h = min n ctxB.length) ∧
    (2 * n < ctxG.length →
      ∃ hFst hSnd : Hunk,
        groupHunks n (ctxA ++ cs1 ++ ctxG ++ cs2 ++ ctxB) = [hFst, hSnd] ∧
        leadingContext hFst = min n ctxA.length ∧
        trailingContext hFst = min n ctxG.length ∧
        leadingContext hSnd = min n ctxG.length ∧
        trailingContext hSnd = min n ctxB.length) := by
  have hruns := changeRuns_two_blocks ctxA ctxG ctxB cs1 cs2 hA hG hB hc1
    h1n hc2 h2n hGn
  obtain ⟨c1, cs1t, h1eq⟩ := List.exists_cons_of_ne_nil h1n
  obtain ⟨c2, cs2t, h2eq⟩ := List.exists_cons_of_ne_nil h2n
  rcases List.eq_nil_or_concat cs1 with hcon | ⟨mid1, e1, h1eqb⟩
  · exact absurd hcon h1n
  rcases List.eq_nil_or_concat cs2 with hcon | ⟨mid2, e2, h2eqb⟩
  · exact absurd hcon h2n
  rw [List.concat_eq_append] at h1eqb h2eqb
  have hc1head : c1.tag ≠ Tag.context := hc1 c1 (by
    rw [h1eq]; exact List.mem_cons_self c1 cs1t)
  have hc2head : c2.tag ≠ Tag.context := hc2 c2 (by
    rw [h2eq]; exact List.mem_cons_self c2 cs2t)
  have hc1last : e1.tag ≠ Tag.context := hc1 e1 (by rw [h1eqb]; simp)
  have hc2last : e2.tag ≠ Tag.context := hc2 e2 (by rw [h2eqb]; simp)
  have hlen : (ctxA ++ cs1 ++ ctxG ++ cs2 ++ ctxB).length
      = ctxA.length + cs1.length + ctxG.length + cs2.length
        + ctxB.length := by
    simp only [List.length_append]
  constructor
  · intro hle
    simp only [groupHunks]
    rw [hruns, mergeRuns_pair]
    have hcond : ctxA.length + cs1.length + ctxG.length
        - (ctxA.length + cs1.length) ≤ 2 * n := by omega
    rw [if_pos hcond]
    simp only [List.map_cons, List.map_nil]
    refine ⟨_, rfl, ?_, ?_⟩
    · rw [leadingContext, hunkOf_lines]
      have hhi : min (ctxA ++ cs1 ++ ctxG ++ cs2 ++ ctxB).length
          (ctxA.length + cs1.length + ctxG.length + cs2.length + n)
          = ctxA.length + (cs1 ++ ctxG ++ cs2).length
            + min n ctxB.length := by
        rw [hlen]
        simp only [List.length_append]
        omega
      have hsplit : ctxA ++ cs1 ++ ctxG ++ cs2 ++ ctxB
          = ctxA ++ (cs1 ++ ctxG ++ cs2) ++ ctxB := by
        simp [List.append_assoc]
      rw [hhi, hsplit, slice_shape ctxA (cs1 ++ ctxG ++ cs2) ctxB
        (ctxA.length - n) (min n ctxB.length) (by omega) (by omega)]
      have hshape : ctxA.drop (ctxA.length - n) ++ (cs1 ++ ctxG ++ cs2)
          ++ ctxB.take (min n ctxB.length)
          = ctxA.drop (ctxA.length - n)
            ++ (c1 :: (cs1t ++ (ctxG ++ cs2)))
            ++ ctxB.take (min n ctxB.length) := by
        rw [h1eq]
        simp [List.append_assoc]
      rw [hshape, leading_len _ c1 _ _
        (fun t ht => hA t (List.mem_of_mem_drop ht)) hc1head,
        List.length_drop]
      omega
    · rw [trailingContext, hunkOf_lines]
      have hhi : min (ctxA ++ cs1 ++ ctxG ++ cs2 ++ ctxB).length
          (ctxA.length + cs1.length + ctxG.length + cs2.length + n)
          = ctxA.length + (cs1 ++ ctxG ++ cs2).length
            + min n ctxB.length := by
        rw [hlen]
        simp only [List.length_append]
        omega
      have hsplit : ctxA ++ cs1 ++ ctxG ++ cs2 ++ ctxB
          = ctxA ++ (cs1 ++ ctxG ++ cs2) ++ ctxB := by
        simp [List.append_assoc]
      rw [hhi, hsplit, slice_shape ctxA (cs1 ++ ctxG ++ cs2) ctxB
        (ctxA.length - n) (min n ctxB.length) (by omega) (by omega)]
      have hshape : ctxA.drop (ctxA.length - n) ++ (cs1 ++ ctxG ++ cs2)
          ++ ctxB.take (min n ctxB.length)
          = (ctxA.drop (ctxA.length - n) ++ (cs1 ++ (ctxG ++ mid2)))
            ++ [e2] ++ ctxB.take (min n ctxB.length) := by
        rw [h2eqb]
        simp [List.append_assoc]
      rw [hshape, trailing_len _ _ e2
        (fun t ht => hB t (List.mem_of_mem_take ht)) hc2last,
        List.length_take]
      omega
  · intro hgt
    simp only [groupHunks]
    rw [hruns, mergeRuns_pair]
    have hcond : ¬ (ctxA.length + cs1.length + ctxG.length
        - (ctxA.length + cs1.length) ≤ 2 * n) := by omega
    rw [if_neg hcond]
    simp only [List.map_cons, List.map_nil]
    refine ⟨_, _, rfl, ?_, ?_, ?_, ?_⟩
    · rw [leadingContext, hunkOf_lines]
      have hhi : min (ctxA ++ cs1 ++ ctxG ++ cs2 ++ ctxB).length
          (ctxA.length + cs1.length + n)
          = ctxA.length + cs1.length + n := by
        rw [hlen]
        omega
      have hsplit : ctxA ++ cs1 ++ ctxG ++ cs2 ++ ctxB
          = ctxA ++ cs1 ++ (ctxG ++ cs2 ++ ctxB) := by
        simp [List.append_assoc]
      rw [hhi, hsplit, slice_shape ctxA cs1 (ctxG ++ cs2 ++ ctxB)
        (ctxA.length - n) n (by omega)
        (by simp only [List.length_append]; omega)]
      have htake : (ctxG ++ cs2 ++ ctxB).take n = ctxG.take n := by
        rw [List.take_append_eq_append_take,
          List.take_append_eq_append_take]
        have e3 : n - ctxG.length = 0 := by omega
        have e4 : n - (ctxG ++ cs2).length = 0 := by
          simp only [List.length_append]
          omega
        rw [e3, e4]
        simp
      have hshape : ctxA.drop (ctxA.length - n) ++ cs1
          ++ (ctxG ++ cs2 ++ ctxB).take n
          = ctxA.drop (ctxA.length - n) ++ (c1 :: cs1t)
            ++ ctxG.take n := by
        rw [htake, h1eq]
      rw [hshape, leading_len _ c1 _ _
        (fun t ht => hA t (List.mem_of_mem_drop ht)) hc1head,
        List.length_drop]
      omega
    · rw [trailingContext, hunkOf_lines]
      have hhi : min (ctxA ++ cs1 ++ ctxG ++ cs2 ++ ctxB).length
          (ctxA.length + cs1.length + n)
          = ctxA.length + cs1.length + n := by
        rw [hlen]
        omega
      have hsplit : ctxA ++ cs1 ++ ctxG ++ cs2 ++ ctxB
          = ctxA ++ cs1 ++ (ctxG ++ cs2 ++ ctxB) := by
        simp [List.append_assoc]
      rw [hhi, hsplit, slice_shape ctxA cs1 (ctxG ++ cs2 ++ ctxB)
        (ctxA.length - n) n (by omega)
        (by simp only [List.length_append]; omega)]
      have htake : (ctxG ++ cs2 ++ ctxB).take n = ctxG.take n := by
        rw [List.take_append_eq_append_take,
          List.take_append_eq_append_take]
        have e3 : n - ctxG.length = 0 := by omega
        have e4 : n - (ctxG ++ cs2).length = 0 := by
          simp only [List.length_append]
          omega
        rw [e3, e4]
        simp
      have hshape : ctxA.drop (ctxA.length - n) ++ cs1
          ++ (ctxG ++ cs2 ++ ctxB).take n
          = (ctxA.drop (ctxA.length - n) ++ mid1) ++ [e1]
            ++ ctxG.take n := by
        rw [htake, h1eqb]
        simp [List.append_assoc]
      rw [hshape, trailing_len _ _ e1
        (fun t ht => hG t (List.mem_of_mem_take ht)) hc1last,
        List.length_take]
    · rw [leadingContext, hunkOf_lines]
      have hhi : min (ctxA ++ cs1 ++ ctxG ++ cs2 ++ ctxB).length
          (ctxA.length + cs1.length + ctxG.length + cs2.length + n)
          = (ctxA ++ cs1 ++ ctxG).length + cs2.length
            + min n ctxB.length := by
        rw [hlen]
        simp only [List.length_append]
        omega
      rw [hhi, slice_shape (ctxA ++ cs1 ++ ctxG) cs2 ctxB
        (ctxA.length + cs1.length + ctxG.length - n) (min n ctxB.length)
        (by simp only [List.length_append]; omega) (by omega)]
      have hdropA : (ctxA ++ cs1 ++ ctxG).drop
          (ctxA.length + cs1.length + ctxG.length - n)
          = ctxG.drop (ctxG.length - n) := by
        rw [List.drop_append_eq_append_drop,
          List.drop_append_eq_append_drop]
        have d1 : ctxA.drop (ctxA.length + cs1.length + ctxG.length - n)
            = [] := List.drop_eq_nil_of_le (by omega)
        have d2 : cs1.drop (ctxA.length + cs1.length + ctxG.length - n
            - ctxA.length) = [] := List.drop_eq_nil_of_le (by omega)
        have d3 : ctxA.length + cs1.length + ctxG.length - n
            - (ctxA ++ cs1).length = ctxG.length - n := by
          simp only [List.length_append]
          omega
        rw [d1, d2, d3]
        simp
      have hshape : (ctxA ++ cs1 ++ ctxG).drop
          (ctxA.length + cs1.length + ctxG.length - n) ++ cs2
          ++ ctxB.take (min n ctxB.length)
          = ctxG.drop (ctxG.length - n) ++ (c2 :: cs2t)
            ++ ctxB.take (min n ctxB.length) := by
        rw [hdropA, h2eq]
      rw [hshape, leading_len _ c2 _ _
        (fun t ht => hG t (List.mem_of_mem_drop ht)) hc2head,
        List.length_drop]
      omega
    · rw [trailingContext, hunkOf_lines]
      have hhi : min (ctxA ++ cs1 ++ ctxG ++ cs2 ++ ctxB).length
          (ctxA.length + cs1.length + ctxG.length + cs2.length + n)
          = (ctxA ++ cs1 ++ ctxG).length + cs2.length
            + min n ctxB.length := by
        rw [hlen]
        simp only [List.length_append]
        omega
      rw [hhi, slice_shape (ctxA ++ cs1 ++ ctxG) cs2 ctxB
        (ctxA.length + cs1.length + ctxG.length - n) (min n ctxB.length)
        (by simp only [List.length_append]; omega) (by omega)]
      have hshape : (ctxA ++ cs1 ++ ctxG).drop
          (ctxA.length + cs1.length + ctxG.length - n) ++ cs2
          ++ ctxB.take (min n ctxB.length)
          = ((ctxA ++ cs1 ++ ctxG).drop
              (ctxA.length + cs1.length + ctxG.length - n) ++ mid2)
            ++ [e2] ++ ctxB.take (min n ctxB.length) := by
        rw [h2eqb]
        simp [List.append_assoc]
      rw [hshape, trailing_len _ _ e2
        (fun t ht => hB t (List.mem_of_mem_take ht)) hc2last,
        List.length_take]
      omega

/-- Witness for C2 at a concrete script: two one-line change runs separated
by a gap of three unchanged lines, with context size 1 (3 > 2), stay in two
separate hunks with the stated context-run lengths. -/
theorem c2_context_bound_and_merge_witness :
    (ctxG₀.length ≤ 2 * 1 →
      ∃ h : Hunk,
        groupHunks 1 (ctxA₀ ++ cs1₀ ++ ctxG₀ ++ cs2₀ ++ []) = [h] ∧
        leadingContext h = min 1 ctxA₀.length ∧
        trailingContext h = min 1 ([] : List TaggedLine).length) ∧
    (2 * 1 < ctxG₀.length →
      ∃ hFst hSnd : Hunk,
        groupHunks 1 (ctxA₀ ++ cs1₀ ++ ctxG₀ ++ cs2₀ ++ [])
          = [hFst, hSnd] ∧
        leadingContext hFst = min 1 ctxA₀.length ∧
        trailingContext hFst = min 1 ctxG₀.length ∧
        leadingContext hSnd = min 1 ctxG₀.length ∧
        trailingContext hSnd = min 1 ([] : List TaggedLine).length) :=
  c2_context_bound_and_merge 1 ctxA₀ ctxG₀ [] cs1₀ cs2₀
    (by decide) (by decide) (by decide) (by decide) (by decide)
    (by decide) (by decide) (by decide)

end MongoDiff
